import Mathlib

/-!
Shallow embedding of the in-memory version-control system from `main.cpp`
(classes `VersionNode`, `HashMap`, `MaxHeap`, `File`, `FileSystem`), together
with proofs of the specified properties.

Modelling conventions:
* `VersionNode*` pointers become indices into an arena list `File.nodes`
  (nodes are only ever allocated at the end of the arena, never freed while
  the file lives, so indices are stable — exactly the discipline of the
  source, where nodes are heap-allocated once and kept until destruction).
* `time_t` timestamps become `Nat`; each call of `time(nullptr)` inside one
  operation is modelled by a single `now` parameter supplied to that
  operation.  The source encodes "not a snapshot" as `snapshot_timestamp == 0`
  and we keep that encoding (`isSnapshot` tests `≠ 0`).
* the hand-rolled `HashMap` is modelled by an association list: `put`
  overwrites an existing key or appends the binding, `get` returns an
  `Option` (the C++ `get` throws when absent; callers catch that, so the
  observable behaviour is exactly `Option`).  Bucket order is unobservable
  through `put`/`get`/`containsKey`.
* operations that print a diagnostic and return without touching state are
  modelled as returning the unchanged state paired with a result tag naming
  the diagnostic path taken (`RollbackResult`, `SnapshotResult`, ...).
-/

namespace VCS

/-- One version of a file; mirrors `struct VersionNode` of the source.
`parent` and `children` hold arena indices instead of raw pointers. -/
structure VersionNode where
  version_id : Nat
  content : String
  message : String
  created_timestamp : Nat
  snapshot_timestamp : Nat
  parent : Option Nat
  children : List Nat
deriving DecidableEq

/-- Mirrors `VersionNode::isSnapshot`: the snapshot timestamp is nonzero. -/
def VersionNode.isSnapshot (n : VersionNode) : Bool :=
  n.snapshot_timestamp ≠ 0

/-- Default node used as the out-of-range value of arena lookups (never
reached on well-formed files). -/
def nodeDefault : VersionNode :=
  ⟨0, "", "", 0, 0, none, []⟩

/-- Mirrors `HashMap::put`: overwrite the binding of an existing key,
otherwise add the new binding. -/
def mapPut {K V : Type} [DecidableEq K] : List (K × V) → K → V → List (K × V)
  | [], k, v => [(k, v)]
  | (k0, v0) :: rest, k, v =>
    if k0 = k then (k0, v) :: rest else (k0, v0) :: mapPut rest k v

/-- Mirrors `HashMap::get`, with the key-not-found exception modelled as
`none`. -/
def mapGet {K V : Type} [DecidableEq K] : List (K × V) → K → Option V
  | [], _ => none
  | (k0, v0) :: rest, k => if k0 = k then some v0 else mapGet rest k

/-- Mirrors `HashMap::containsKey`. -/
def mapContains {K V : Type} [DecidableEq K] (m : List (K × V)) (k : K) : Bool :=
  (mapGet m k).isSome

/-- Mirrors `class File`: the version tree (as an arena, one entry per node
ever created, in creation order), the active node, the id index, the version
counter and the last-modification timestamp. -/
structure File where
  filename : String
  nodes : List VersionNode
  active_version : Nat
  version_map : List (Int × Nat)
  total_versions : Nat
  last_modification_time : Nat
deriving DecidableEq

/-- Arena lookup (dereference of a `VersionNode*`). -/
def File.getNode (f : File) (i : Nat) : VersionNode :=
  f.nodes.getD i nodeDefault

/-- The node the `active_version` pointer refers to. -/
def File.activeNode (f : File) : VersionNode :=
  f.getNode f.active_version

/-- Mirrors the constructor `File::File`: one root node, id 0, empty content,
immediately snapshotted with message "Initial version". -/
def File.create (name : String) (now : Nat) : File :=
  { filename := name
    nodes := [{ version_id := 0, content := "", message := "Initial version",
                created_timestamp := now, snapshot_timestamp := now,
                parent := none, children := [] }]
    active_version := 0
    version_map := mapPut [] (0 : Int) 0
    total_versions := 1
    last_modification_time := now }

/-- Mirrors `File::read`. -/
def File.read (f : File) : String :=
  f.activeNode.content

/-- Mirrors `File::insert`: if the active node is a snapshot, branch off a new
child whose content appends the supplied text; otherwise append to the active
node's content in place.  Either way stamp `last_modification_time`. -/
def File.insert (f : File) (content_to_add : String) (now : Nat) : File :=
  if f.activeNode.isSnapshot then
    { f with
      nodes := (f.nodes.set f.active_version
                  { f.activeNode with
                    children := f.activeNode.children ++ [f.nodes.length] })
                ++ [{ version_id := f.total_versions,
                      content := f.activeNode.content ++ content_to_add,
                      message := "",
                      created_timestamp := now, snapshot_timestamp := 0,
                      parent := some f.active_version, children := [] }]
      active_version := f.nodes.length
      version_map := mapPut f.version_map (f.total_versions : Int) f.nodes.length
      total_versions := f.total_versions + 1
      last_modification_time := now }
  else
    { f with
      nodes := f.nodes.set f.active_version
                 { f.activeNode with
                   content := f.activeNode.content ++ content_to_add }
      last_modification_time := now }

/-- Mirrors `File::update`: same branching policy as `File.insert` but the
new content is the supplied text verbatim. -/
def File.update (f : File) (new_content : String) (now : Nat) : File :=
  if f.activeNode.isSnapshot then
    { f with
      nodes := (f.nodes.set f.active_version
                  { f.activeNode with
                    children := f.activeNode.children ++ [f.nodes.length] })
                ++ [{ version_id := f.total_versions,
                      content := new_content,
                      message := "",
                      created_timestamp := now, snapshot_timestamp := 0,
                      parent := some f.active_version, children := [] }]
      active_version := f.nodes.length
      version_map := mapPut f.version_map (f.total_versions : Int) f.nodes.length
      total_versions := f.total_versions + 1
      last_modification_time := now }
  else
    { f with
      nodes := f.nodes.set f.active_version
                 { f.activeNode with content := new_content }
      last_modification_time := now }

/-- Outcome of `File::snapshot` (success print vs. the already-snapshotted
error print). -/
inductive SnapshotResult
  | ok
  | alreadySnapshotted
deriving DecidableEq

/-- Mirrors `File::snapshot`: reject when the active node is already a
snapshot, otherwise stamp message and snapshot timestamp and update
`last_modification_time`. -/
def File.snapshot (f : File) (message : String) (now : Nat) : File × SnapshotResult :=
  if f.activeNode.isSnapshot then
    (f, .alreadySnapshotted)
  else
    ({ f with
       nodes := f.nodes.set f.active_version
                  { f.activeNode with message := message, snapshot_timestamp := now }
       last_modification_time := now }, .ok)

/-- Outcome of `File::rollback`; the source returns `bool` but takes four
distinguishable paths (the two failure prints differ, and `AlreadyActive`
prints its own diagnostic), which the spec's error taxonomy names. -/
inductive RollbackResult
  | ok
  | noParent
  | alreadyActive
  | versionNotFound
deriving DecidableEq

/-- Mirrors `File::rollback`.  `versionId = -1` (the default argument) selects
parent mode; any other value selects by-id mode, which first rejects the
currently active id and then consults the id index. -/
def File.rollback (f : File) (versionId : Int) : File × RollbackResult :=
  if versionId = -1 then
    match f.activeNode.parent with
    | some p => ({ f with active_version := p }, .ok)
    | none => (f, .noParent)
  else
    if versionId = (f.activeNode.version_id : Int) then
      (f, .alreadyActive)
    else
      match mapGet f.version_map versionId with
      | some idx => ({ f with active_version := idx }, .ok)
      | none => (f, .versionNotFound)

/-- One line of `File::history` output: id, snapshot timestamp, message
(the `strftime` rendering of the timestamp is presentation only). -/
structure HistoryEntry where
  version_id : Nat
  snapshot_timestamp : Nat
  message : String
deriving DecidableEq

/-- The `while (current != nullptr)` walk of `File::history`, from index `i`
up the `parent` links.  The fuel argument only serves termination; on
well-formed files (parent index below child index) fuel `i + 1` already
reaches the root, and `File.ancestorChain` passes `nodes.length`. -/
def chainFrom (nodes : List VersionNode) : Nat → Nat → List Nat
  | 0, _ => []
  | fuel + 1, i =>
    i :: (match (nodes.getD i nodeDefault).parent with
          | none => []
          | some p => chainFrom nodes fuel p)

/-- Indices visited by the `File::history` walk: active node first, then its
parent, and so on up to the root. -/
def File.ancestorChain (f : File) : List Nat :=
  chainFrom f.nodes f.nodes.length f.active_version

/-- Mirrors `File::history`: walk up from the active node, keep the
snapshotted nodes, then reverse into oldest-first order. -/
def File.history (f : File) : List HistoryEntry :=
  (((f.ancestorChain.map f.getNode).filter (fun n => n.isSnapshot)).map
     (fun n => ⟨n.version_id, n.snapshot_timestamp, n.message⟩)).reverse

/-- Mirrors `File::getVersionCount`. -/
def File.getVersionCount (f : File) : Nat :=
  f.total_versions

/-- Representation invariant of reachable `File` states: the arena holds
`total_versions` nodes in creation order (so the node at index `k` carries
version id `k`), the active pointer is in range, every parent was created
before its child, and the id index maps exactly the issued ids `0 ..
total_versions - 1` to their arena slots. -/
def idMap (n : Nat) : List (Int × Nat) :=
  (List.range n).map (fun (k : Nat) => ((k : Int), k))

/-- Condition that a node's parent link points strictly below its own arena
slot (and only the root lacks a parent). -/
def parentBelow (n : VersionNode) (k : Nat) : Prop :=
  match n.parent with
  | none => k = 0
  | some p => p < k

instance (n : VersionNode) (k : Nat) : Decidable (parentBelow n k) := by
  unfold parentBelow
  cases n.parent <;> infer_instance

/-- Well-formedness of a `File` (holds of every state the source can reach). -/
def File.WF (f : File) : Prop :=
  f.nodes.length = f.total_versions ∧
  f.active_version < f.nodes.length ∧
  (∀ k < f.nodes.length, (f.getNode k).version_id = k) ∧
  (∀ k < f.nodes.length, parentBelow (f.getNode k) k) ∧
  f.version_map = idMap f.total_versions

instance (f : File) : Decidable f.WF := by
  unfold File.WF
  infer_instance

/-- States of a `File` producible by the source's public operations:
construction followed by any sequence of insert/update/snapshot/rollback
calls.  `reachable_wf` below shows `File.WF` holds of all of them, which is
why the claim theorems may assume it. -/
inductive File.Reachable : File → Prop
  | created (name : String) (now : Nat) : File.Reachable (File.create name now)
  | inserted (f : File) (s : String) (now : Nat) :
      File.Reachable f → File.Reachable (f.insert s now)
  | updated (f : File) (s : String) (now : Nat) :
      File.Reachable f → File.Reachable (f.update s now)
  | snapshotted (f : File) (msg : String) (now : Nat) :
      File.Reachable f → File.Reachable (f.snapshot msg now).1
  | rolledBack (f : File) (id : Int) :
      File.Reachable f → File.Reachable (f.rollback id).1

/-- Mirrors `struct FileMetric`: a file name tagged with a score (timestamp
or version count; the source stores it as `long long`). -/
structure FileMetric where
  filename : String
  value : Int
deriving DecidableEq

/-- Default metric used as the out-of-range value of heap lookups. -/
def metricDefault : FileMetric :=
  ⟨"", 0⟩

/-- Score stored at slot `i` of the heap vector. -/
def hval (h : List FileMetric) (i : Nat) : Int :=
  (h.getD i metricDefault).value

/-- Mirrors `custom_swap(heap[i], heap[j])` on the heap vector. -/
def swapL (h : List FileMetric) (i j : Nat) : List FileMetric :=
  (h.set i (h.getD j metricDefault)).set j (h.getD i metricDefault)

/-- Loop of `MaxHeap::heapifyUp`: bubble the entry at `index` up while it
beats its parent.  The fuel argument only serves termination (the loop index
strictly decreases, so fuel `index + 1` runs the loop to completion). -/
def heapifyUpF : Nat → List FileMetric → Nat → List FileMetric
  | 0, h, _ => h
  | fuel + 1, h, index =>
    if 0 < index ∧ hval h ((index - 1) / 2) < hval h index then
      heapifyUpF fuel (swapL h ((index - 1) / 2) index) ((index - 1) / 2)
    else
      h

/-- Mirrors `MaxHeap::heapifyUp`. -/
def heapifyUp (h : List FileMetric) (index : Nat) : List FileMetric :=
  heapifyUpF (index + 1) h index

/-- The index `maxIndex` computed by one pass of `MaxHeap::heapifyDown`'s
loop body: the largest of slot `index` and its two children. -/
def downTarget (h : List FileMetric) (index : Nat) : Nat :=
  let l := 2 * index + 1
  let r := 2 * index + 2
  let m1 := if l < h.length ∧ hval h index < hval h l then l else index
  if r < h.length ∧ hval h m1 < hval h r then r else m1

/-- Loop of `MaxHeap::heapifyDown`: sift the entry at `index` down, swapping
with the larger child, until the loop's `index == maxIndex` exit.  The fuel
argument only serves termination (the loop index strictly increases but stays
below the unchanged length, so fuel `length + 1` runs the loop to
completion). -/
def heapifyDownF : Nat → List FileMetric → Nat → List FileMetric
  | 0, h, _ => h
  | fuel + 1, h, index =>
    if downTarget h index = index then
      h
    else
      heapifyDownF fuel (swapL h index (downTarget h index)) (downTarget h index)

/-- Mirrors `MaxHeap::heapifyDown`. -/
def heapifyDown (h : List FileMetric) (index : Nat) : List FileMetric :=
  heapifyDownF (h.length + 1) h index

/-- Mirrors `MaxHeap::insert`: `push_back` then `heapifyUp` on the last
slot. -/
def heapInsert (h : List FileMetric) (v : FileMetric) : List FileMetric :=
  heapifyUp (h ++ [v]) h.length

/-- Mirrors `MaxHeap::extractMax` (the empty-heap `out_of_range` throw is
`none`): save the root, move the last entry to the root, pop the back, then
`heapifyDown(0)` if anything remains. -/
def extractMax : List FileMetric → Option (FileMetric × List FileMetric)
  | [] => none
  | x :: rest =>
    let popped := (((x :: rest).getLast (List.cons_ne_nil x rest)) :: rest).dropLast
    some (x, if popped.isEmpty then popped else heapifyDown popped 0)

/-- Mirrors `class FileSystem`: the name index and the two analytics heaps. -/
structure FileSystem where
  files : List (String × File)
  recent_files_heap : List FileMetric
  biggest_trees_heap : List FileMetric
deriving DecidableEq

/-- Mirrors `FileSystem::FileSystem`: empty map, empty heaps. -/
def FileSystem.empty : FileSystem :=
  ⟨[], [], []⟩

/-- Mirrors `FileSystem::updateAnalytics`: rebuild both heaps from scratch by
inserting one metric per file. -/
def FileSystem.updateAnalytics (fs : FileSystem) : FileSystem :=
  { fs with
    recent_files_heap :=
      fs.files.foldl
        (fun hp nf => heapInsert hp ⟨nf.2.filename, (nf.2.last_modification_time : Int)⟩) []
    biggest_trees_heap :=
      fs.files.foldl
        (fun hp nf => heapInsert hp ⟨nf.2.filename, (nf.2.total_versions : Int)⟩) [] }

/-- Outcome of `FileSystem::create`. -/
inductive CreateResult
  | ok
  | alreadyExists
deriving DecidableEq

/-- Mirrors `FileSystem::create`: reject a taken name, otherwise install a
fresh `File` and rebuild the analytics heaps. -/
def FileSystem.create (fs : FileSystem) (filename : String) (now : Nat) :
    FileSystem × CreateResult :=
  if mapContains fs.files filename then
    (fs, .alreadyExists)
  else
    (FileSystem.updateAnalytics
       { fs with files := mapPut fs.files filename (File.create filename now) },
     .ok)

/-- The `while (count < limit && !tempHeap.isEmpty())` extraction loop shared
by `FileSystem::recentFiles` and `FileSystem::biggestTrees`, run on the
throwaway copy of a heap.  The `Nat` argument is the number of remaining
iterations the `int` counter allows, i.e. `limit.toNat`. -/
def drain : List FileMetric → Nat → List FileMetric
  | _, 0 => []
  | h, n + 1 =>
    match extractMax h with
    | none => []
    | some (m, h') => m :: drain h' n

/-- The `(name, score)` sequence produced by `FileSystem::recentFiles(num)`
(the header line and `strftime` rendering are presentation only):
`num = -1` means all files, otherwise at most `num` entries. -/
def FileSystem.recentFilesList (fs : FileSystem) (num : Int) : List FileMetric :=
  let limit : Int := if num = -1 then (fs.files.length : Int) else num
  drain fs.recent_files_heap limit.toNat

/-- Mirrors the whole of `FileSystem::recentFiles` as a method: the entry
sequence it prints, paired with the post-state of the file system — the
method drains only the local `tempHeap` copy and writes no field. -/
def FileSystem.recentFiles (fs : FileSystem) (num : Int) :
    List FileMetric × FileSystem :=
  (fs.recentFilesList num, fs)

/-- The `(name, score)` sequence produced by `FileSystem::biggestTrees(num)`. -/
def FileSystem.biggestTreesList (fs : FileSystem) (num : Int) : List FileMetric :=
  let limit : Int := if num = -1 then (fs.files.length : Int) else num
  drain fs.biggest_trees_heap limit.toNat

/-- Mirrors the whole of `FileSystem::biggestTrees` as a method, as with
`FileSystem.recentFiles`. -/
def FileSystem.biggestTrees (fs : FileSystem) (num : Int) :
    List FileMetric × FileSystem :=
  (fs.biggestTreesList num, fs)

/-- A `FileSystem` state whose analytics heaps agree with a fresh rebuild —
true after every mutating operation, since each of them ends in
`updateAnalytics`. -/
def FileSystem.analyticsConsistent (fs : FileSystem) : Prop :=
  fs = fs.updateAnalytics

instance (fs : FileSystem) : Decidable fs.analyticsConsistent := by
  unfold FileSystem.analyticsConsistent
  infer_instance

/-- Shape of a version node: everything except the mutable payload fields
(content, message, timestamps).  Used to state that in-place edits leave the
tree structure untouched. -/
def nodeShape (n : VersionNode) : Nat × Option Nat × List Nat :=
  (n.version_id, n.parent, n.children)

/-- Property bundle for claim C1 (branch-or-mutate policy of insert/update).
If the active node is mutable, both operations keep the version count, the
tree shape and the active pointer, rewriting only the active content (append
for insert, replace for update).  If it is a snapshot, both operations bump
the version count by one, create the node with the next sequential id as a
child of the prior active node (content derived per operation), register it
in the id index, move `active` to it, and leave the prior content alone. -/
def BranchOrMutateProp (f : File) (s : String) (now : Nat) : Prop :=
  (f.activeNode.isSnapshot = false →
    ((f.insert s now).getVersionCount = f.getVersionCount ∧
     (f.insert s now).nodes.map nodeShape = f.nodes.map nodeShape ∧
     (f.insert s now).active_version = f.active_version ∧
     (f.insert s now).activeNode.content = f.activeNode.content ++ s) ∧
    ((f.update s now).getVersionCount = f.getVersionCount ∧
     (f.update s now).nodes.map nodeShape = f.nodes.map nodeShape ∧
     (f.update s now).active_version = f.active_version ∧
     (f.update s now).activeNode.content = s)) ∧
  (f.activeNode.isSnapshot = true →
    ((f.insert s now).getVersionCount = f.getVersionCount + 1 ∧
     (f.insert s now).active_version = f.total_versions ∧
     (f.insert s now).activeNode.version_id = f.total_versions ∧
     (f.insert s now).activeNode.parent = some f.active_version ∧
     (f.insert s now).activeNode.content = f.activeNode.content ++ s ∧
     ((f.insert s now).getNode f.active_version).content = f.activeNode.content ∧
     ((f.insert s now).getNode f.active_version).children
       = f.activeNode.children ++ [f.total_versions] ∧
     mapGet (f.insert s now).version_map ((f.total_versions : Int))
       = some f.total_versions) ∧
    ((f.update s now).getVersionCount = f.getVersionCount + 1 ∧
     (f.update s now).active_version = f.total_versions ∧
     (f.update s now).activeNode.version_id = f.total_versions ∧
     (f.update s now).activeNode.parent = some f.active_version ∧
     (f.update s now).activeNode.content = s ∧
     ((f.update s now).getNode f.active_version).content = f.activeNode.content ∧
     ((f.update s now).getNode f.active_version).children
       = f.activeNode.children ++ [f.total_versions] ∧
     mapGet (f.update s now).version_map ((f.total_versions : Int))
       = some f.total_versions))

/-- Property bundle for claim C2 (`create`): an existing name is rejected
with the repository unchanged; a fresh name installs a file satisfying the
root invariant (one version, id 0, no parent, already snapshotted with the
message "Initial version"). -/
def CreateSpecProp (fs : FileSystem) (name : String) (now : Nat) : Prop :=
  (mapContains fs.files name = true →
     fs.create name now = (fs, CreateResult.alreadyExists)) ∧
  (mapContains fs.files name = false →
     (fs.create name now).2 = CreateResult.ok ∧
     mapGet (fs.create name now).1.files name = some (File.create name now) ∧
     (File.create name now).getVersionCount = 1 ∧
     (File.create name now).nodes.length = 1 ∧
     ((File.create name now).getNode 0).version_id = 0 ∧
     ((File.create name now).getNode 0).parent = none ∧
     ((File.create name now).getNode 0).isSnapshot = true ∧
     ((File.create name now).getNode 0).message = "Initial version" ∧
     (File.create name now).active_version = 0)

/-- Property bundle for the amended claim C3 (by-id rollback, for ids other
than the `-1` sentinel): on a well-formed file an id exists iff it lies in
`0 .. total_versions - 1`; an absent id fails with `VersionNotFound` and no
state change, the active id fails with `AlreadyActive` and no state change,
and any other existing id succeeds by repointing `active` at that node —
wherever it sits in the tree. -/
def RollbackByIdProp (f : File) (id : Int) : Prop :=
  ((∀ k < f.nodes.length, (((f.getNode k).version_id : Int)) ≠ id) ↔
     ¬ (0 ≤ id ∧ id < (f.total_versions : Int))) ∧
  (¬ (0 ≤ id ∧ id < (f.total_versions : Int)) →
     f.rollback id = (f, RollbackResult.versionNotFound)) ∧
  (id = ((f.activeNode.version_id : Int)) →
     f.rollback id = (f, RollbackResult.alreadyActive)) ∧
  (∀ k : Nat, k < f.total_versions → (k : Int) = id →
     id ≠ ((f.activeNode.version_id : Int)) →
     f.rollback id = ({ f with active_version := k }, RollbackResult.ok))

/-- Property bundle for claim C4 (snapshot): an already-snapshotted active
node is rejected with no state change; a mutable one is stamped with the
supplied time and message (content untouched, `lastModifiedAt` updated), and
an immediately repeated snapshot is then rejected, returning the state of the
first call unchanged. -/
def SnapshotSpecProp (f : File) (msg msg2 : String) (now now2 : Nat) : Prop :=
  (f.activeNode.isSnapshot = true →
     f.snapshot msg now = (f, SnapshotResult.alreadySnapshotted)) ∧
  (f.activeNode.isSnapshot = false →
     (f.snapshot msg now).2 = SnapshotResult.ok ∧
     (f.snapshot msg now).1.activeNode.snapshot_timestamp = now ∧
     (f.snapshot msg now).1.activeNode.message = msg ∧
     (f.snapshot msg now).1.activeNode.content = f.activeNode.content ∧
     (f.snapshot msg now).1.last_modification_time = now ∧
     (f.snapshot msg now).1.snapshot msg2 now2
       = ((f.snapshot msg now).1, SnapshotResult.alreadySnapshotted))

/-- Property bundle for claim C6 (history): the walked chain starts at the
active node, follows parent links, and ends at the parentless root; history
contains exactly the snapshotted nodes of that chain (each entry carrying the
node's id, snapshot time and message) and its ids are strictly increasing,
i.e. the entries run from the root end of the chain towards the active end. -/
def HistorySpecProp (f : File) : Prop :=
  f.ancestorChain.head? = some f.active_version ∧
  f.ancestorChain.Chain' (fun a b => (f.getNode a).parent = some b) ∧
  (∀ hne : f.ancestorChain ≠ [],
     (f.getNode (f.ancestorChain.getLast hne)).parent = none) ∧
  (f.history.map HistoryEntry.version_id).Chain' (· < ·) ∧
  (∀ e, e ∈ f.history ↔
     ∃ k ∈ f.ancestorChain, (f.getNode k).isSnapshot = true ∧
       e = ⟨(f.getNode k).version_id, (f.getNode k).snapshot_timestamp,
            (f.getNode k).message⟩)

/-- Max-heap property of the vector encoding used by `MaxHeap`: no child's
score exceeds its parent's. -/
def IsHeap (h : List FileMetric) : Prop :=
  ∀ i, 0 < i → i < h.length → hval h i ≤ hval h ((i - 1) / 2)

/-- Heap property relaxed at one index for `heapifyUp`: every edge whose
child is not `idx` is fine, and `idx`'s own children (if any) are already
bounded by `idx`'s parent. -/
def AlmostHeapUp (h : List FileMetric) (idx : Nat) : Prop :=
  (∀ c, 0 < c → c < h.length → c ≠ idx → hval h c ≤ hval h ((c - 1) / 2)) ∧
  (0 < idx → ∀ c, (c = 2 * idx + 1 ∨ c = 2 * idx + 2) → c < h.length →
     hval h c ≤ hval h ((idx - 1) / 2))

/-- Heap property relaxed at one index for `heapifyDown`: every edge whose
parent is not `idx` is fine, and `idx`'s children (possibly out of order with
`idx` itself) are bounded by `idx`'s parent. -/
def AlmostHeapDown (h : List FileMetric) (idx : Nat) : Prop :=
  (∀ c, 0 < c → c < h.length → (c - 1) / 2 ≠ idx → hval h c ≤ hval h ((c - 1) / 2)) ∧
  (0 < idx → ∀ c, (c = 2 * idx + 1 ∨ c = 2 * idx + 2) → c < h.length →
     hval h c ≤ hval h ((idx - 1) / 2))

/-- Property bundle for claim C7 (ranking queries): both rankings are sorted
by non-increasing score; with the `-1` sentinel or any limit at least the
file count they enumerate exactly one metric per file; and the query methods
return the repository state unchanged (they drain only a throwaway copy). -/
def RankingSpecProp (fs : FileSystem) (num : Int) : Prop :=
  (fs.recentFilesList num).Pairwise (fun a b => b.value ≤ a.value) ∧
  (fs.biggestTreesList num).Pairwise (fun a b => b.value ≤ a.value) ∧
  ((num = -1 ∨ (fs.files.length : Int) ≤ num) →
     (fs.recentFilesList num).Perm
       (fs.files.map (fun nf => ⟨nf.2.filename, (nf.2.last_modification_time : Int)⟩)) ∧
     (fs.biggestTreesList num).Perm
       (fs.files.map (fun nf => ⟨nf.2.filename, (nf.2.total_versions : Int)⟩))) ∧
  fs.recentFiles num = (fs.recentFilesList num, fs) ∧
  fs.biggestTrees num = (fs.biggestTreesList num, fs)

/-! ### Helper lemmas about lists and the association map -/

theorem downTarget_cases (h : List FileMetric) (index : Nat) :
    downTarget h index = index ∨
      (index < downTarget h index ∧ downTarget h index < h.length) := by
  simp only [downTarget]
  split_ifs <;> omega

theorem length_swapL (h : List FileMetric) (i j : Nat) :
    (swapL h i j).length = h.length := by
  simp [swapL]

theorem getD_set_eq {α : Type} (l : List α) (i : Nat) (x d : α) (h : i < l.length) :
    (l.set i x).getD i d = x := by
  simp [List.getD_eq_getElem?_getD, List.getElem?_set_self h]

theorem getD_set_ne {α : Type} (l : List α) (i j : Nat) (x d : α) (h : i ≠ j) :
    (l.set i x).getD j d = l.getD j d := by
  simp [List.getD_eq_getElem?_getD, List.getElem?_set_ne h]

theorem getD_append_left {α : Type} (l l' : List α) (d : α) (n : Nat) (h : n < l.length) :
    (l ++ l').getD n d = l.getD n d :=
  List.getD_append l l' d n h

theorem getD_append_full {α : Type} (l : List α) (x d : α) :
    (l ++ [x]).getD l.length d = x := by
  rw [List.getD_append_right l [x] d l.length (Nat.le_refl _)]
  simp

theorem getD_append_len {α : Type} (l : List α) (x d : α) (n : Nat) (h : n = l.length) :
    (l ++ [x]).getD n d = x := by
  subst h
  exact getD_append_full l x d

theorem mapGet_mapPut_self {K V : Type} [DecidableEq K] (m : List (K × V)) (k : K) (v : V) :
    mapGet (mapPut m k v) k = some v := by
  induction m with
  | nil => simp [mapPut, mapGet]
  | cons hd tl ih =>
    by_cases hk : hd.1 = k
    · simp [mapPut, mapGet, hk]
    · simp [mapPut, mapGet, hk, ih]

theorem mapGet_mapPut_ne {K V : Type} [DecidableEq K] (m : List (K × V)) (k k' : K) (v : V)
    (h : k ≠ k') : mapGet (mapPut m k v) k' = mapGet m k' := by
  induction m with
  | nil =>
    simp only [mapPut, mapGet]
    rw [if_neg h]
  | cons hd tl ih =>
    obtain ⟨k0, v0⟩ := hd
    by_cases hk : k0 = k
    · subst hk
      simp [mapPut, mapGet, h]
    · simp [mapPut, mapGet, hk, ih]

theorem mapPut_of_absent {K V : Type} [DecidableEq K] (m : List (K × V)) (k : K) (v : V)
    (h : mapGet m k = none) : mapPut m k v = m ++ [(k, v)] := by
  induction m with
  | nil => simp [mapPut]
  | cons hd tl ih =>
    by_cases hk : hd.1 = k
    · simp [mapGet, hk] at h
    · simp [mapGet, hk] at h
      simp [mapPut, hk, ih h]

theorem mapGet_append_some {K V : Type} [DecidableEq K] (m m' : List (K × V)) (k : K) (v : V)
    (h : mapGet m k = some v) : mapGet (m ++ m') k = some v := by
  induction m with
  | nil => simp [mapGet] at h
  | cons hd tl ih =>
    by_cases hk : hd.1 = k
    · simp [mapGet, hk] at h ⊢
      exact h
    · simp [mapGet, hk] at h ⊢
      exact ih h

theorem mapGet_append_none {K V : Type} [DecidableEq K] (m m' : List (K × V)) (k : K)
    (h : mapGet m k = none) : mapGet (m ++ m') k = mapGet m' k := by
  induction m with
  | nil => simp [mapGet]
  | cons hd tl ih =>
    by_cases hk : hd.1 = k
    · simp [mapGet, hk] at h
    · simp [mapGet, hk] at h ⊢
      exact ih h

theorem idMap_succ (n : Nat) : idMap (n + 1) = idMap n ++ [((n : Int), n)] := by
  simp [idMap, List.range_succ]

theorem mapGet_idMap (n : Nat) (i : Int) :
    mapGet (idMap n) i = if 0 ≤ i ∧ i < (n : Int) then some i.toNat else none := by
  induction n with
  | zero =>
    rw [if_neg (by omega)]
    rfl
  | succ n ih =>
    rw [idMap_succ]
    by_cases hi : 0 ≤ i ∧ i < (n : Int)
    · rw [mapGet_append_some _ _ _ _ (by rw [ih, if_pos hi]), if_pos (by omega)]
    · rw [mapGet_append_none _ _ _ (by rw [ih, if_neg hi])]
      by_cases hieq : ((n : Int)) = i
      · have h2 : mapGet [((n : Int), n)] i = some n := by
          simp [mapGet, hieq]
        rw [h2, if_pos (by omega)]
        congr 1
        omega
      · have h2 : mapGet [((n : Int), n)] i = none := by
          simp [mapGet, hieq]
        rw [h2, if_neg (by omega)]

theorem mapPut_idMap (n : Nat) : mapPut (idMap n) ((n : Int)) n = idMap (n + 1) := by
  rw [mapPut_of_absent, idMap_succ]
  rw [mapGet_idMap]
  rw [if_neg (by omega)]

theorem map_shape_set {α β : Type} (l : List α) (i : Nat) (x : α) (g : α → β) (d : α)
    (h : g x = g (l.getD i d)) : (l.set i x).map g = l.map g := by
  apply List.ext_getElem?
  intro j
  by_cases hij : i = j
  · subst hij
    by_cases hi : i < l.length
    · simp only [List.getElem?_map, List.getElem?_set_self hi, List.getElem?_eq_getElem hi,
        Option.map_some']
      rw [h, List.getD_eq_getElem l d hi]
    · rw [List.set_eq_of_length_le (by omega)]
  · simp [List.getElem?_map, List.getElem?_set_ne hij]

/-! ### Claim theorems -/

/-- C5: parent-mode rollback (no id supplied, i.e. the `-1` default) moves
`active` to the active node's parent when one exists, and fails with
`NoParent` leaving `active` unchanged when the active node is the root. -/
theorem rollback_parent_mode (f : File) :
    (∀ p, f.activeNode.parent = some p →
       f.rollback (-1) = ({ f with active_version := p }, RollbackResult.ok)) ∧
    (f.activeNode.parent = none → f.rollback (-1) = (f, RollbackResult.noParent)) := by
  constructor
  · intro p hp
    simp [File.rollback, hp]
  · intro hp
    simp [File.rollback, hp]

/-- Witness for `rollback_parent_mode` at a concrete two-node file whose
active node 1 has parent 0, and at a freshly created root-only file. -/
theorem rollback_parent_mode_witness :
    ((File.create "a" 1).insert "x" 2).rollback (-1)
      = ({ (File.create "a" 1).insert "x" 2 with active_version := 0 },
         RollbackResult.ok) ∧
    (File.create "a" 1).rollback (-1) = (File.create "a" 1, RollbackResult.noParent) :=
  ⟨(rollback_parent_mode ((File.create "a" 1).insert "x" 2)).1 0 (by decide),
   (rollback_parent_mode (File.create "a" 1)).2 (by decide)⟩

/-- C9: the internal `-1` sentinel makes `rollback(-1)` behave exactly as
parent-mode rollback on every file: it never reports `VersionNotFound` or
`AlreadyActive` (so id-mode rollback to `-1` is unreachable, also from the
CLI, whose `stoi("-1")` passes `-1` straight through). -/
theorem rollback_sentinel_collision (f : File) :
    (f.rollback (-1)).2 ≠ RollbackResult.versionNotFound ∧
    (f.rollback (-1)).2 ≠ RollbackResult.alreadyActive ∧
    f.rollback (-1) = (match f.activeNode.parent with
                       | some p => ({ f with active_version := p }, RollbackResult.ok)
                       | none => (f, RollbackResult.noParent)) := by
  cases hp : f.activeNode.parent <;> simp [File.rollback, hp]

/-- C8: every mutating operation stamps `lastModifiedAt` with the current
time — insert and update in both their branches, snapshot on success — while
rollback (either mode, any outcome) leaves `lastModifiedAt`, the node arena
and the version count untouched (`read` and `history` are pure functions of
the state and return no state at all). -/
theorem lastModified_frame (f : File) (s msg : String) (now : Nat) (id : Int) :
    (f.insert s now).last_modification_time = now ∧
    (f.update s now).last_modification_time = now ∧
    ((f.snapshot msg now).2 = SnapshotResult.ok →
       (f.snapshot msg now).1.last_modification_time = now) ∧
    (f.rollback id).1.last_modification_time = f.last_modification_time ∧
    (f.rollback id).1.nodes = f.nodes ∧
    (f.rollback id).1.total_versions = f.total_versions := by
  refine ⟨?_, ?_, ?_, ?_, ?_, ?_⟩
  · unfold File.insert
    split <;> rfl
  · unfold File.update
    split <;> rfl
  · unfold File.snapshot
    split
    · intro hok
      simp at hok
    · intro _
      rfl
  all_goals
    unfold File.rollback
    split
    · cases hp : f.activeNode.parent <;> simp [hp]
    · split
      · rfl
      · cases hg : mapGet f.version_map id <;> simp [hg]

/-- Witness for `lastModified_frame` at a concrete file, time and id. -/
theorem lastModified_frame_witness :
    (((File.create "a" 1).insert "x" 2).insert "y" 3).last_modification_time = 3 ∧
    (((File.create "a" 1).insert "x" 2).update "y" 3).last_modification_time = 3 ∧
    ((((File.create "a" 1).insert "x" 2).snapshot "m" 3).2 = SnapshotResult.ok →
       ((((File.create "a" 1).insert "x" 2)).snapshot "m" 3).1.last_modification_time = 3) ∧
    (((File.create "a" 1).insert "x" 2).rollback 0).1.last_modification_time
      = ((File.create "a" 1).insert "x" 2).last_modification_time ∧
    (((File.create "a" 1).insert "x" 2).rollback 0).1.nodes
      = ((File.create "a" 1).insert "x" 2).nodes ∧
    (((File.create "a" 1).insert "x" 2).rollback 0).1.total_versions
      = ((File.create "a" 1).insert "x" 2).total_versions :=
  lastModified_frame ((File.create "a" 1).insert "x" 2) "y" "m" 3 0

/-- C10: a ranking limit that is negative but not the `-1` sentinel, or zero,
yields zero entries — only the exact value `-1` is read as "all files". -/
theorem ranking_nonpositive_limit (fs : FileSystem) (num : Int)
    (hle : num ≤ 0) (hne : num ≠ -1) :
    fs.recentFilesList num = [] ∧ fs.biggestTreesList num = [] := by
  have ht : num.toNat = 0 := by omega
  constructor
  · simp [FileSystem.recentFilesList, hne, ht, drain]
  · simp [FileSystem.biggestTreesList, hne, ht, drain]

/-- Witness for `ranking_nonpositive_limit` on a two-file repository with
limit `-2`. -/
theorem ranking_nonpositive_limit_witness :
    (((FileSystem.empty.create "a" 1).1.create "b" 2).1.recentFilesList (-2) = [] ∧
     ((FileSystem.empty.create "a" 1).1.create "b" 2).1.biggestTreesList (-2) = []) :=
  ranking_nonpositive_limit ((FileSystem.empty.create "a" 1).1.create "b" 2).1 (-2)
    (by decide) (by decide)

/-- C2: `create` on a taken name fails with `AlreadyExists` and leaves the
repository unchanged; on a fresh name it succeeds and the created file
satisfies the root invariant: version count 1, sole node with id 0, no
parent, immediately a snapshot carrying the message "Initial version". -/
theorem create_spec (fs : FileSystem) (name : String) (now : Nat) (hnow : 0 < now) :
    CreateSpecProp fs name now := by
  constructor
  · intro htaken
    simp [FileSystem.create, htaken]
  · intro hfresh
    refine ⟨?_, ?_, ?_, ?_, ?_, ?_, ?_, ?_, ?_⟩
    · simp [FileSystem.create, hfresh]
    · simp only [FileSystem.create, hfresh, Bool.false_eq_true, if_neg]
      simp [FileSystem.updateAnalytics, mapGet_mapPut_self]
    · rfl
    · rfl
    · rfl
    · rfl
    · simp [File.create, File.getNode, VersionNode.isSnapshot]
      omega
    · rfl
    · rfl

/-- Witness for `create_spec` on the empty repository at time 1. -/
theorem create_spec_witness : CreateSpecProp FileSystem.empty "a" 1 :=
  create_spec FileSystem.empty "a" 1 (by decide)

/-- C4: snapshotting a mutable active node succeeds, stamping the time and
message and updating `lastModifiedAt`; snapshotting an already-snapshotted
node is rejected with no state change, so snapshot-then-snapshot yields
success then `AlreadySnapshotted` with the state identical around the failed
call. -/
theorem snapshot_spec (f : File) (msg msg2 : String) (now now2 : Nat)
    (hwf : f.WF) (hnow : 0 < now) : SnapshotSpecProp f msg msg2 now now2 := by
  obtain ⟨hlen, hact, hids, hpar, hmap⟩ := hwf
  constructor
  · intro hsnap
    simp [File.snapshot, hsnap]
  · intro hsnap
    have hcond : ¬ (f.activeNode.isSnapshot = true) := by simp [hsnap]
    have hred : f.snapshot msg now
        = ({ f with
             nodes := f.nodes.set f.active_version
               { f.activeNode with message := msg, snapshot_timestamp := now }
             last_modification_time := now }, SnapshotResult.ok) := by
      rw [File.snapshot, if_neg hcond]
    have hactiveNew : (f.snapshot msg now).1.activeNode
        = { f.activeNode with message := msg, snapshot_timestamp := now } := by
      rw [hred]
      simp only [File.activeNode, File.getNode]
      exact getD_set_eq _ _ _ _ hact
    refine ⟨?_, ?_, ?_, ?_, ?_, ?_⟩
    · rw [hred]
    · rw [hactiveNew]
    · rw [hactiveNew]
    · rw [hactiveNew]
    · rw [hred]
    · have h1 : (f.snapshot msg now).1.activeNode.isSnapshot = true := by
        rw [hactiveNew]
        simp only [VersionNode.isSnapshot]
        simp
        omega
      rw [File.snapshot, if_pos h1]

/-- Witness for `snapshot_spec` at a concrete file with a mutable active
node. -/
theorem snapshot_spec_witness :
    SnapshotSpecProp ((File.create "a" 1).insert "x" 2) "m1" "m2" 3 4 :=
  snapshot_spec ((File.create "a" 1).insert "x" 2) "m1" "m2" 3 4 (by decide) (by decide)

/-- C3 counterexample: the claim quantifies over *every* supplied id, but for
id `-1` the code runs parent mode instead of by-id mode.  On a two-node file
whose active node has a parent there is no node with id `-1`, yet
`rollback(-1)` succeeds (moving to the parent) instead of failing with
`VersionNotFound`. -/
theorem rollback_by_id_counterexample :
    (∀ k < ((File.create "a" 1).insert "x" 2).nodes.length,
       (((((File.create "a" 1).insert "x" 2).getNode k).version_id : Int)) ≠ -1) ∧
    ((((File.create "a" 1).insert "x" 2).rollback (-1)).2 = RollbackResult.ok) := by
  decide

/-- C3 (amended to ids other than the `-1` parent-mode sentinel): by-id
rollback fails with `VersionNotFound` exactly when the id was never issued,
fails with `AlreadyActive` on the active node's id, and otherwise jumps
`active` to the requested node anywhere in the tree; both failures leave the
state unchanged. -/
theorem rollback_by_id (f : File) (id : Int) (hwf : f.WF) (hid : id ≠ -1) :
    RollbackByIdProp f id := by
  obtain ⟨hlen, hact, hids, hpar, hmap⟩ := hwf
  have hactid : (f.activeNode.version_id : Int) = (f.active_version : Int) := by
    have := hids f.active_version hact
    simp [File.activeNode] at this ⊢
    rw [this]
  refine ⟨?_, ?_, ?_, ?_⟩
  · constructor
    · intro hnone
      intro hrange
      have hk := hnone id.toNat (by omega)
      rw [hids id.toNat (by omega)] at hk
      omega
    · intro hrange k hk
      rw [hids k hk]
      omega
  · intro hrange
    have hne : id ≠ (f.activeNode.version_id : Int) := by
      rw [hactid]
      omega
    rw [File.rollback, if_neg hid, if_neg hne, hmap, mapGet_idMap, if_neg hrange]
  · intro heq
    rw [File.rollback, if_neg hid, if_pos heq]
  · intro k hk hkid hne
    rw [File.rollback, if_neg hid, if_neg hne, hmap, mapGet_idMap,
      if_pos (by omega)]
    have : id.toNat = k := by omega
    rw [this]

/-- Witness for `rollback_by_id`: on the concrete file with nodes 0 and 1
(active 1), rolling back to id 0 succeeds, rolling back to id 1 is
`AlreadyActive`, and rolling back to id 7 is `VersionNotFound`. -/
theorem rollback_by_id_witness :
    RollbackByIdProp ((File.create "a" 1).insert "x" 2) 0 :=
  rollback_by_id ((File.create "a" 1).insert "x" 2) 0 (by decide) (by decide)

/-- C1: the branch-or-mutate policy of insert and update, as bundled by
`BranchOrMutateProp`. -/
theorem branch_or_mutate (f : File) (s : String) (now : Nat) (hwf : f.WF) :
    BranchOrMutateProp f s now := by
  obtain ⟨hlen, hact, hids, hpar, hmap⟩ := hwf
  constructor
  · intro hsnap
    have hcond : ¬ (f.activeNode.isSnapshot = true) := by simp [hsnap]
    have hredI : f.insert s now
        = { f with
            nodes := f.nodes.set f.active_version
              { f.activeNode with content := f.activeNode.content ++ s }
            last_modification_time := now } := by
      rw [File.insert, if_neg hcond]
    have hredU : f.update s now
        = { f with
            nodes := f.nodes.set f.active_version
              { f.activeNode with content := s }
            last_modification_time := now } := by
      rw [File.update, if_neg hcond]
    constructor
    · refine ⟨by rw [hredI]; rfl, ?_, by rw [hredI], ?_⟩
      · rw [hredI]
        exact map_shape_set _ _ _ _ _ rfl
      · rw [hredI]
        simp only [File.activeNode, File.getNode]
        rw [getD_set_eq _ _ _ _ hact]
    · refine ⟨by rw [hredU]; rfl, ?_, by rw [hredU], ?_⟩
      · rw [hredU]
        exact map_shape_set _ _ _ _ _ rfl
      · rw [hredU]
        simp only [File.activeNode, File.getNode]
        rw [getD_set_eq _ _ _ _ hact]
  · intro hsnap
    have hsetlen : ∀ (x : VersionNode),
        (f.nodes.set f.active_version x).length = f.nodes.length := by
      simp
    constructor
    · have hred : f.insert s now
          = { f with
              nodes := (f.nodes.set f.active_version
                          { f.activeNode with
                            children := f.activeNode.children ++ [f.nodes.length] })
                        ++ [{ version_id := f.total_versions,
                              content := f.activeNode.content ++ s,
                              message := "",
                              created_timestamp := now, snapshot_timestamp := 0,
                              parent := some f.active_version, children := [] }]
              active_version := f.nodes.length
              version_map := mapPut f.version_map ((f.total_versions : Int)) f.nodes.length
              total_versions := f.total_versions + 1
              last_modification_time := now } := by
        rw [File.insert, if_pos hsnap]
      have hactive : (f.insert s now).activeNode
          = { version_id := f.total_versions,
              content := f.activeNode.content ++ s,
              message := "",
              created_timestamp := now, snapshot_timestamp := 0,
              parent := some f.active_version, children := [] } := by
        rw [hred]
        simp only [File.activeNode, File.getNode]
        exact getD_append_len _ _ _ _ (by simp)
      have hprior : (f.insert s now).getNode f.active_version
          = { f.activeNode with
              children := f.activeNode.children ++ [f.nodes.length] } := by
        rw [hred]
        simp only [File.getNode]
        rw [getD_append_left _ _ _ _ (by rw [hsetlen]; exact hact)]
        exact getD_set_eq _ _ _ _ hact
      refine ⟨by rw [hred]; rfl, by rw [hred]; exact hlen, ?_, ?_, ?_, ?_, ?_, ?_⟩
      · rw [hactive]
      · rw [hactive]
      · rw [hactive]
      · rw [hprior]
      · rw [hprior, hlen]
      · rw [hred]
        show mapGet (mapPut f.version_map ((f.total_versions : Int)) f.nodes.length)
          ((f.total_versions : Int)) = some f.total_versions
        rw [mapGet_mapPut_self, hlen]
    · have hred : f.update s now
          = { f with
              nodes := (f.nodes.set f.active_version
                          { f.activeNode with
                            children := f.activeNode.children ++ [f.nodes.length] })
                        ++ [{ version_id := f.total_versions,
                              content := s,
                              message := "",
                              created_timestamp := now, snapshot_timestamp := 0,
                              parent := some f.active_version, children := [] }]
              active_version := f.nodes.length
              version_map := mapPut f.version_map ((f.total_versions : Int)) f.nodes.length
              total_versions := f.total_versions + 1
              last_modification_time := now } := by
        rw [File.update, if_pos hsnap]
      have hactive : (f.update s now).activeNode
          = { version_id := f.total_versions,
              content := s,
              message := "",
              created_timestamp := now, snapshot_timestamp := 0,
              parent := some f.active_version, children := [] } := by
        rw [hred]
        simp only [File.activeNode, File.getNode]
        exact getD_append_len _ _ _ _ (by simp)
      have hprior : (f.update s now).getNode f.active_version
          = { f.activeNode with
              children := f.activeNode.children ++ [f.nodes.length] } := by
        rw [hred]
        simp only [File.getNode]
        rw [getD_append_left _ _ _ _ (by rw [hsetlen]; exact hact)]
        exact getD_set_eq _ _ _ _ hact
      refine ⟨by rw [hred]; rfl, by rw [hred]; exact hlen, ?_, ?_, ?_, ?_, ?_, ?_⟩
      · rw [hactive]
      · rw [hactive]
      · rw [hactive]
      · rw [hprior]
      · rw [hprior, hlen]
      · rw [hred]
        show mapGet (mapPut f.version_map ((f.total_versions : Int)) f.nodes.length)
          ((f.total_versions : Int)) = some f.total_versions
        rw [mapGet_mapPut_self, hlen]

/-- Witness for `branch_or_mutate` at a concrete file (root snapshot, so the
branching side is exercised; the theorem also covers the in-place side). -/
theorem branch_or_mutate_witness :
    BranchOrMutateProp (File.create "a" 1) "hi" 2 :=
  branch_or_mutate (File.create "a" 1) "hi" 2 (by decide)

/-- Structure of the `File::history` walk on an arena whose parent links
point strictly downwards: with enough fuel it starts at the requested index,
follows parent links, ends at a parentless node, stays at or below the start,
and is strictly decreasing. -/
theorem chainFrom_props (nodes : List VersionNode)
    (hpar : ∀ k < nodes.length, parentBelow (nodes.getD k nodeDefault) k) :
    ∀ i, i < nodes.length → ∀ fuel, i < fuel →
      (chainFrom nodes fuel i).head? = some i ∧
      (chainFrom nodes fuel i).Chain'
        (fun a b => (nodes.getD a nodeDefault).parent = some b) ∧
      (∀ hne : chainFrom nodes fuel i ≠ [],
         (nodes.getD ((chainFrom nodes fuel i).getLast hne) nodeDefault).parent = none) ∧
      (∀ j ∈ chainFrom nodes fuel i, j ≤ i) ∧
      (chainFrom nodes fuel i).Pairwise (fun a b => b < a) := by
  intro i
  induction i using Nat.strong_induction_on with
  | _ i ih =>
    intro hi fuel hfuel
    obtain ⟨F, rfl⟩ : ∃ F, fuel = F + 1 := ⟨fuel - 1, by omega⟩
    cases hp : (nodes.getD i nodeDefault).parent with
    | none =>
      have hch : chainFrom nodes (F + 1) i = [i] := by
        rw [chainFrom, hp]
      rw [hch]
      refine ⟨rfl, List.chain'_singleton i, ?_, ?_, ?_⟩
      · intro hne
        simpa using hp
      · intro j hj
        simp at hj
        omega
      · simp
    | some p =>
      have hpi : p < i := by
        have := hpar i hi
        rw [parentBelow, hp] at this
        exact this
      have hch : chainFrom nodes (F + 1) i = i :: chainFrom nodes F p := by
        rw [chainFrom, hp]
      obtain ⟨ih1, ih2, ih3, ih4, ih5⟩ := ih p hpi (by omega) F (by omega)
      have hrest_ne : chainFrom nodes F p ≠ [] := by
        intro hcontra
        rw [hcontra] at ih1
        simp at ih1
      rw [hch]
      refine ⟨rfl, ?_, ?_, ?_, ?_⟩
      · rw [List.chain'_cons']
        refine ⟨?_, ih2⟩
        intro b hb
        rw [ih1] at hb
        simp at hb
        rw [← hb]
        exact hp
      · intro hne
        rw [List.getLast_cons hrest_ne]
        exact ih3 hrest_ne
      · intro j hj
        rcases List.mem_cons.mp hj with hj | hj
        · omega
        · have := ih4 j hj
          omega
      · rw [List.pairwise_cons]
        refine ⟨?_, ih5⟩
        intro j hj
        have := ih4 j hj
        omega

/-- C6: history lists exactly the snapshotted nodes of the parent-chain from
the active node to the root, oldest-first (strictly increasing ids, i.e. from
the root end toward the active end), each entry carrying id, snapshot
timestamp and message. -/
theorem history_spec (f : File) (hwf : f.WF) : HistorySpecProp f := by
  obtain ⟨hlen, hact, hids, hpar, hmap⟩ := hwf
  obtain ⟨h1, h2, h3, h4, h5⟩ :=
    chainFrom_props f.nodes hpar f.active_version hact f.nodes.length hact
  have hh : f.history
      = ((f.ancestorChain.filter (fun k => (f.getNode k).isSnapshot)).map
          (fun k => (⟨(f.getNode k).version_id, (f.getNode k).snapshot_timestamp,
                      (f.getNode k).message⟩ : HistoryEntry))).reverse := by
    unfold File.history
    rw [List.filter_map, List.map_map]
    rfl
  have hids' : ∀ k ∈ f.ancestorChain.filter (fun k => (f.getNode k).isSnapshot),
      (f.getNode k).version_id = k := by
    intro k hk
    have hk' := (List.mem_filter.mp hk).1
    have hkle := h4 k hk'
    exact hids k (by omega)
  refine ⟨h1, h2, h3, ?_, ?_⟩
  · rw [hh, List.map_reverse, List.map_map]
    have hcomp : (HistoryEntry.version_id ∘
          (fun k => (⟨(f.getNode k).version_id, (f.getNode k).snapshot_timestamp,
                      (f.getNode k).message⟩ : HistoryEntry)))
        = fun k => (f.getNode k).version_id := rfl
    have hmapid : (f.ancestorChain.filter (fun k => (f.getNode k).isSnapshot)).map
        (HistoryEntry.version_id ∘
          (fun k => (⟨(f.getNode k).version_id, (f.getNode k).snapshot_timestamp,
                      (f.getNode k).message⟩ : HistoryEntry)))
        = f.ancestorChain.filter (fun k => (f.getNode k).isSnapshot) := by
      rw [hcomp, List.map_congr_left hids']
      exact List.map_id _
    rw [hmapid]
    have hpw : (f.ancestorChain.filter (fun k => (f.getNode k).isSnapshot)).Pairwise
        (fun a b => b < a) := h5.filter _
    exact (List.pairwise_reverse.mpr hpw).chain'
  · intro e
    rw [hh]
    simp only [List.mem_reverse, List.mem_map, List.mem_filter]
    constructor
    · rintro ⟨k, ⟨hkchain, hksnap⟩, rfl⟩
      exact ⟨k, hkchain, hksnap, rfl⟩
    · rintro ⟨k, hkchain, hksnap, rfl⟩
      exact ⟨k, ⟨hkchain, hksnap⟩, rfl⟩

/-- Witness for `history_spec` at a three-node file: root snapshot, middle
snapshot, mutable active tip. -/
theorem history_spec_witness :
    HistorySpecProp (((((File.create "a" 1).insert "x" 2).snapshot "v1" 3).1).insert "y" 4) :=
  history_spec (((((File.create "a" 1).insert "x" 2).snapshot "v1" 3).1).insert "y" 4)
    (by decide)

/-! ### Heap correctness -/

theorem hval_swapL_fst (h : List FileMetric) (i j : Nat) (hij : i ≠ j) (hi : i < h.length) :
    hval (swapL h i j) i = hval h j := by
  unfold hval swapL
  rw [getD_set_ne _ _ _ _ _ (Ne.symm hij), getD_set_eq _ _ _ _ hi]

theorem hval_swapL_snd (h : List FileMetric) (i j : Nat) (hj : j < h.length) :
    hval (swapL h i j) j = hval h i := by
  unfold hval swapL
  rw [getD_set_eq _ _ _ _ (by simpa using hj)]

theorem hval_swapL_other (h : List FileMetric) (i j k : Nat) (hki : k ≠ i) (hkj : k ≠ j) :
    hval (swapL h i j) k = hval h k := by
  unfold hval swapL
  rw [getD_set_ne _ _ _ _ _ (Ne.symm hkj), getD_set_ne _ _ _ _ _ (Ne.symm hki)]

theorem cons_set_perm {α : Type} (d : α) :
    ∀ (t : List α) (m : Nat), m < t.length → ∀ (a : α),
      (t.getD m d :: t.set m a).Perm (a :: t)
  | [], m, hm, _ => absurd hm (by simp)
  | b :: t, 0, _, a => by
    simp only [List.getD_cons_zero, List.set_cons_zero]
    exact List.Perm.swap a b t
  | b :: t, m + 1, hm, a => by
    simp only [List.getD_cons_succ, List.set_cons_succ]
    have h1 : (t.getD m d :: b :: t.set m a).Perm (b :: t.getD m d :: t.set m a) :=
      List.Perm.swap b (t.getD m d) (t.set m a)
    have h2 : (b :: t.getD m d :: t.set m a).Perm (b :: a :: t) :=
      (cons_set_perm d t m (by simpa using hm) a).cons b
    have h3 : (b :: a :: t).Perm (a :: b :: t) := List.Perm.swap a b t
    exact (h1.trans h2).trans h3

theorem swapL_perm : ∀ (h : List FileMetric) (i j : Nat), i < h.length → j < h.length →
    (swapL h i j).Perm h
  | [], _, _, hi, _ => absurd hi (by simp)
  | b :: t, 0, 0, _, _ => by
    simp [swapL]
  | b :: t, 0, j + 1, _, hj => by
    unfold swapL
    simp only [List.getD_cons_zero, List.getD_cons_succ, List.set_cons_zero,
      List.set_cons_succ]
    exact cons_set_perm metricDefault t j (by simpa using hj) b
  | b :: t, i + 1, 0, hi, _ => by
    unfold swapL
    simp only [List.getD_cons_zero, List.getD_cons_succ, List.set_cons_zero,
      List.set_cons_succ]
    exact cons_set_perm metricDefault t i (by simpa using hi) b
  | b :: t, i + 1, j + 1, hi, hj => by
    unfold swapL
    simp only [List.getD_cons_succ, List.set_cons_succ]
    exact (swapL_perm t i j (by simpa using hi) (by simpa using hj)).cons b

theorem isHeap_le_root (h : List FileMetric) (hh : IsHeap h) :
    ∀ i, i < h.length → hval h i ≤ hval h 0 := by
  intro i
  induction i using Nat.strong_induction_on with
  | _ i ih =>
    intro hi
    rcases Nat.eq_zero_or_pos i with rfl | hpos
    · exact le_refl _
    · exact le_trans (hh i hpos hi) (ih ((i - 1) / 2) (by omega) (by omega))

theorem isHeap_mem_le_root (h : List FileMetric) (hh : IsHeap h) (m : FileMetric)
    (hm : m ∈ h) : m.value ≤ hval h 0 := by
  obtain ⟨i, hilt, hieq⟩ := List.mem_iff_getElem.mp hm
  have hle := isHeap_le_root h hh i hilt
  simp only [hval] at hle ⊢
  rw [List.getD_eq_getElem _ _ hilt, hieq] at hle
  exact hle

theorem heapifyUpF_isHeap : ∀ (fuel : Nat) (h : List FileMetric) (idx : Nat),
    idx < fuel → idx < h.length → AlmostHeapUp h idx → IsHeap (heapifyUpF fuel h idx) := by
  intro fuel
  induction fuel with
  | zero =>
    intro h idx hfuel
    omega
  | succ fuel ih =>
    intro h idx _ hidx hah
    rw [heapifyUpF]
    split
    case isTrue hcond =>
      obtain ⟨hpos, hlt⟩ := hcond
      have hpilt : (idx - 1) / 2 < idx := by omega
      have hpilen : (idx - 1) / 2 < h.length := by omega
      refine ih _ ((idx - 1) / 2) (by omega) (by rw [length_swapL]; omega) ?_
      have hv_pi : hval (swapL h ((idx - 1) / 2) idx) ((idx - 1) / 2) = hval h idx :=
        hval_swapL_fst h ((idx - 1) / 2) idx (by omega) hpilen
      have hv_idx : hval (swapL h ((idx - 1) / 2) idx) idx = hval h ((idx - 1) / 2) :=
        hval_swapL_snd h ((idx - 1) / 2) idx hidx
      have hv_other : ∀ k, k ≠ (idx - 1) / 2 → k ≠ idx →
          hval (swapL h ((idx - 1) / 2) idx) k = hval h k :=
        fun k h1 h2 => hval_swapL_other h ((idx - 1) / 2) idx k h1 h2
      constructor
      · intro c hc0 hclen hcpi
        rw [length_swapL] at hclen
        by_cases hcidx : c = idx
        · subst hcidx
          have hpar_c : (c - 1) / 2 = (c - 1) / 2 := rfl
          rw [hv_idx]
          have : hval (swapL h ((c - 1) / 2) c) ((c - 1) / 2) = hval h c := hv_pi
          rw [this]
          omega
        · by_cases hchild_idx : (c - 1) / 2 = idx
          · rw [hchild_idx, hv_idx, hv_other c (by omega) hcidx]
            exact hah.2 hpos c (by omega) hclen
          · by_cases hchild_pi : (c - 1) / 2 = (idx - 1) / 2
            · rw [hchild_pi, hv_pi, hv_other c (by omega) hcidx]
              have hc1 := hah.1 c hc0 hclen hcidx
              rw [hchild_pi] at hc1
              omega
            · rw [hv_other c hcpi hcidx, hv_other _ hchild_pi hchild_idx]
              exact hah.1 c hc0 hclen hcidx
      · intro hpipos c hc hclen
        rw [length_swapL] at hclen
        have hgp_ne_pi : ((idx - 1) / 2 - 1) / 2 ≠ (idx - 1) / 2 := by omega
        have hgp_ne_idx : ((idx - 1) / 2 - 1) / 2 ≠ idx := by omega
        rw [hv_other _ hgp_ne_pi hgp_ne_idx]
        by_cases hcidx : c = idx
        · subst hcidx
          rw [hv_idx]
          exact hah.1 ((c - 1) / 2) hpipos hpilen (by omega)
        · rw [hv_other c (by omega) hcidx]
          have h1 := hah.1 c (by omega) hclen hcidx
          have h2 := hah.1 ((idx - 1) / 2) hpipos hpilen (by omega)
          have hcp : (c - 1) / 2 = (idx - 1) / 2 := by omega
          rw [hcp] at h1
          omega
    case isFalse hcond =>
      intro c hc0 hclen
      by_cases hc : c = idx
      · subst hc
        omega
      · exact hah.1 c hc0 hclen hc

theorem heapifyUpF_perm : ∀ (fuel : Nat) (h : List FileMetric) (idx : Nat),
    idx < fuel → idx < h.length → (heapifyUpF fuel h idx).Perm h := by
  intro fuel
  induction fuel with
  | zero =>
    intro h idx hfuel
    omega
  | succ fuel ih =>
    intro h idx _ hidx
    rw [heapifyUpF]
    split
    case isTrue hcond =>
      exact (ih _ ((idx - 1) / 2) (by omega) (by rw [length_swapL]; omega)).trans
        (swapL_perm h ((idx - 1) / 2) idx (by omega) hidx)
    case isFalse _ =>
      exact List.Perm.refl h

theorem heapInsert_isHeap (h : List FileMetric) (v : FileMetric) (hh : IsHeap h) :
    IsHeap (heapInsert h v) := by
  apply heapifyUpF_isHeap (h.length + 1) (h ++ [v]) h.length (by omega) (by simp)
  constructor
  · intro c hc0 hclen hcne
    have hclen' : c < h.length := by
      simp at hclen
      omega
    have hpar : (c - 1) / 2 < h.length := by omega
    simp only [hval]
    rw [getD_append_left _ _ _ _ hclen', getD_append_left _ _ _ _ hpar]
    exact hh c hc0 hclen'
  · intro hpos c hc hclen
    simp at hclen
    omega

theorem heapInsert_perm (h : List FileMetric) (v : FileMetric) :
    (heapInsert h v).Perm (h ++ [v]) :=
  heapifyUpF_perm (h.length + 1) (h ++ [v]) h.length (by omega) (by simp)

theorem downTarget_spec (h : List FileMetric) (idx : Nat)
    (hne : downTarget h idx ≠ idx) :
    (downTarget h idx = 2 * idx + 1 ∨ downTarget h idx = 2 * idx + 2) ∧
    downTarget h idx < h.length ∧
    hval h idx < hval h (downTarget h idx) ∧
    (∀ c, (c = 2 * idx + 1 ∨ c = 2 * idx + 2) → c < h.length →
       hval h c ≤ hval h (downTarget h idx)) := by
  simp only [downTarget] at hne ⊢
  split_ifs at hne ⊢ with h1 h2 <;>
    refine ⟨by omega, by omega, by omega, ?_⟩ <;>
    · intro c hc hclen
      rcases hc with rfl | rfl <;> omega

theorem downTarget_eq_spec (h : List FileMetric) (idx : Nat)
    (heq : downTarget h idx = idx) :
    ∀ c, (c = 2 * idx + 1 ∨ c = 2 * idx + 2) → c < h.length → hval h c ≤ hval h idx := by
  simp only [downTarget] at heq
  split_ifs at heq with h1 h2 <;>
    · intro c hc hclen
      rcases hc with rfl | rfl <;> omega

theorem heapifyDownF_isHeap : ∀ (fuel : Nat) (h : List FileMetric) (idx : Nat),
    h.length - idx < fuel → AlmostHeapDown h idx → IsHeap (heapifyDownF fuel h idx) := by
  intro fuel
  induction fuel with
  | zero =>
    intro h idx hfuel
    omega
  | succ fuel ih =>
    intro h idx hfuel hah
    rw [heapifyDownF]
    split
    case isTrue heq =>
      intro c hc0 hclen
      by_cases hcpar : (c - 1) / 2 = idx
      · have := downTarget_eq_spec h idx heq c (by omega) hclen
        rw [hcpar]
        omega
      · exact hah.1 c hc0 hclen hcpar
    case isFalse hne =>
      obtain ⟨hts, htlen, htlt, htch⟩ := downTarget_spec h idx hne
      have hidxt : idx < downTarget h idx := by omega
      have hidxlen : idx < h.length := by omega
      refine ih _ (downTarget h idx) (by rw [length_swapL]; omega) ?_
      have hv_idx : hval (swapL h idx (downTarget h idx)) idx = hval h (downTarget h idx) :=
        hval_swapL_fst h idx (downTarget h idx) (by omega) hidxlen
      have hv_t : hval (swapL h idx (downTarget h idx)) (downTarget h idx) = hval h idx :=
        hval_swapL_snd h idx (downTarget h idx) htlen
      have hv_other : ∀ k, k ≠ idx → k ≠ downTarget h idx →
          hval (swapL h idx (downTarget h idx)) k = hval h k :=
        fun k h1 h2 => hval_swapL_other h idx (downTarget h idx) k h1 h2
      constructor
      · intro c hc0 hclen hcpar
        rw [length_swapL] at hclen
        by_cases hct : c = downTarget h idx
        · have hcp : (c - 1) / 2 = idx := by omega
          rw [hcp, hv_idx, hct, hv_t]
          omega
        · by_cases hcidx : c = idx
          · have h0idx : 0 < idx := by omega
            have hp_ne_idx : (idx - 1) / 2 ≠ idx := by omega
            have hp_ne_t : (idx - 1) / 2 ≠ downTarget h idx := by omega
            rw [hcidx, hv_idx, hv_other _ hp_ne_idx hp_ne_t]
            exact hah.2 h0idx (downTarget h idx) hts htlen
          · by_cases hchild : (c - 1) / 2 = idx
            · rw [hchild, hv_idx, hv_other c hcidx hct]
              exact htch c (by omega) hclen
            · rw [hv_other c hcidx hct, hv_other _ hchild hcpar]
              exact hah.1 c hc0 hclen hchild
      · intro htpos c hc hclen
        rw [length_swapL] at hclen
        have hc_ne_idx : c ≠ idx := by omega
        have hc_ne_t : c ≠ downTarget h idx := by omega
        have hp_eq : (downTarget h idx - 1) / 2 = idx := by omega
        rw [hv_other c hc_ne_idx hc_ne_t, hp_eq, hv_idx]
        have := hah.1 c (by omega) hclen (by omega)
        have hcp : (c - 1) / 2 = downTarget h idx := by omega
        rw [hcp] at this
        exact this

theorem heapifyDownF_perm : ∀ (fuel : Nat) (h : List FileMetric) (idx : Nat),
    h.length - idx < fuel → (heapifyDownF fuel h idx).Perm h := by
  intro fuel
  induction fuel with
  | zero =>
    intro h idx hfuel
    omega
  | succ fuel ih =>
    intro h idx hfuel
    rw [heapifyDownF]
    split
    case isTrue _ =>
      exact List.Perm.refl h
    case isFalse hne =>
      obtain ⟨hts, htlen, _, _⟩ := downTarget_spec h idx hne
      have hidxlen : idx < h.length := by omega
      exact (ih _ (downTarget h idx) (by rw [length_swapL]; omega)).trans
        (swapL_perm h idx (downTarget h idx) hidxlen htlen)

theorem hval_tail_cons (x : FileMetric) (rest : List FileMetric) (hne : rest ≠ [])
    (k : Nat) (hk1 : 1 ≤ k) (hk2 : k < rest.length) :
    hval (rest.getLast hne :: rest.dropLast) k = hval (x :: rest) k := by
  obtain ⟨m, rfl⟩ : ∃ m, k = m + 1 := ⟨k - 1, by omega⟩
  simp only [hval, List.getD_cons_succ]
  rw [List.getD_eq_getElem _ _ (by rw [List.length_dropLast]; omega),
      List.getD_eq_getElem _ _ (by omega : m < rest.length), List.getElem_dropLast]

theorem extractMax_cons (x : FileMetric) (rest : List FileMetric) :
    ∃ h', extractMax (x :: rest) = some (x, h') ∧ h'.Perm rest ∧
      (IsHeap (x :: rest) → IsHeap h') := by
  match rest with
  | [] =>
    refine ⟨[], rfl, List.Perm.refl _, fun _ => ?_⟩
    intro c hc0 hclen
    simp at hclen
  | r :: rs =>
    have hne : r :: rs ≠ ([] : List FileMetric) := List.cons_ne_nil r rs
    have hpperm : ((r :: rs).getLast hne :: (r :: rs).dropLast).Perm (r :: rs) := by
      have h1 := List.perm_append_singleton ((r :: rs).getLast hne) (r :: rs).dropLast
      have h2 := List.dropLast_concat_getLast hne
      have h3 : ((r :: rs).dropLast ++ [(r :: rs).getLast hne]).Perm (r :: rs) := by
        rw [h2]
      exact h1.symm.trans h3
    have hlenp : ((r :: rs).getLast hne :: (r :: rs).dropLast).length
        = (r :: rs).length := by
      simp
    have hah : IsHeap (x :: r :: rs) →
        AlmostHeapDown ((r :: rs).getLast hne :: (r :: rs).dropLast) 0 := by
      intro hh
      constructor
      · intro c hc0 hclen hcpar
        rw [hlenp] at hclen
        rw [hval_tail_cons x _ hne c (by omega) hclen,
            hval_tail_cons x _ hne _ (by omega) (by omega)]
        exact hh c hc0 (by simp at hclen ⊢; omega)
      · intro h0
        omega
    refine ⟨heapifyDown ((r :: rs).getLast hne :: (r :: rs).dropLast) 0, rfl, ?_, ?_⟩
    · unfold heapifyDown
      exact (heapifyDownF_perm _ _ 0 (by omega)).trans hpperm
    · intro hh
      unfold heapifyDown
      exact heapifyDownF_isHeap _ _ 0 (by omega) (hah hh)

theorem drain_subset : ∀ (n : Nat) (h : List FileMetric) (m : FileMetric),
    m ∈ drain h n → m ∈ h := by
  intro n
  induction n with
  | zero =>
    intro h m hm
    simp [drain] at hm
  | succ n ih =>
    intro h m hm
    match h with
    | [] => simp [drain, extractMax] at hm
    | x :: rest =>
      obtain ⟨h', he, hperm, _⟩ := extractMax_cons x rest
      have hred : drain (x :: rest) (n + 1) = x :: drain h' n := by
        rw [drain, he]
      rw [hred] at hm
      rcases List.mem_cons.mp hm with rfl | hm
      · exact List.mem_cons_self _ _
      · exact List.mem_cons_of_mem x (hperm.mem_iff.mp (ih h' m hm))

theorem drain_sorted : ∀ (n : Nat) (h : List FileMetric), IsHeap h →
    (drain h n).Pairwise (fun a b => b.value ≤ a.value) := by
  intro n
  induction n with
  | zero =>
    intro h _
    simp [drain]
  | succ n ih =>
    intro h hh
    match h with
    | [] => simp [drain, extractMax]
    | x :: rest =>
      obtain ⟨h', he, hperm, hih⟩ := extractMax_cons x rest
      have hred : drain (x :: rest) (n + 1) = x :: drain h' n := by
        rw [drain, he]
      rw [hred, List.pairwise_cons]
      constructor
      · intro m hm
        have hmem : m ∈ x :: rest :=
          List.mem_cons_of_mem x (hperm.mem_iff.mp (drain_subset n h' m hm))
        have hle := isHeap_mem_le_root (x :: rest) hh m hmem
        simpa [hval] using hle
      · exact ih h' (hih hh)

theorem drain_perm : ∀ (n : Nat) (h : List FileMetric), h.length ≤ n →
    (drain h n).Perm h := by
  intro n
  induction n with
  | zero =>
    intro h hle
    have hnil : h = [] := List.length_eq_zero.mp (by omega)
    subst hnil
    simp [drain]
  | succ n ih =>
    intro h hle
    match h with
    | [] => simp [drain, extractMax]
    | x :: rest =>
      obtain ⟨h', he, hperm, _⟩ := extractMax_cons x rest
      have hred : drain (x :: rest) (n + 1) = x :: drain h' n := by
        rw [drain, he]
      rw [hred]
      have hlen : h'.length = rest.length := hperm.length_eq
      have hrest : rest.length ≤ n := by
        simp at hle
        omega
      exact ((ih h' (by omega)).trans hperm).cons x

theorem foldl_heapInsert_isHeap (l : List FileMetric) :
    ∀ acc, IsHeap acc → IsHeap (l.foldl heapInsert acc) := by
  induction l with
  | nil =>
    intro acc h
    exact h
  | cons v l ih =>
    intro acc h
    exact ih _ (heapInsert_isHeap acc v h)

theorem foldl_heapInsert_perm (l : List FileMetric) :
    ∀ acc, (l.foldl heapInsert acc).Perm (acc ++ l) := by
  induction l with
  | nil =>
    intro acc
    simp
  | cons v l ih =>
    intro acc
    have h1 := ih (heapInsert acc v)
    have h2 : (heapInsert acc v ++ l).Perm ((acc ++ [v]) ++ l) :=
      (heapInsert_perm acc v).append_right l
    refine (h1.trans h2).trans ?_
    rw [List.append_assoc, List.singleton_append]

theorem isHeap_nil : IsHeap [] := by
  intro c hc0 hclen
  simp at hclen

/-! ### The representation invariant holds of every reachable file state -/

theorem wf_create (name : String) (now : Nat) : (File.create name now).WF := by
  refine ⟨rfl, by simp [File.create], ?_, ?_, rfl⟩
  · intro k hk
    simp [File.create] at hk
    subst hk
    rfl
  · intro k hk
    simp [File.create] at hk
    subst hk
    exact rfl

theorem wf_set_preserve (f : File) (x : VersionNode) (hwf : f.WF)
    (hid : x.version_id = f.activeNode.version_id)
    (hparent : x.parent = f.activeNode.parent) (lm : Nat) :
    File.WF { f with nodes := f.nodes.set f.active_version x,
                     last_modification_time := lm } := by
  obtain ⟨hlen, hact, hids, hpar, hmap⟩ := hwf
  refine ⟨by simpa using hlen, by simpa using hact, ?_, ?_, hmap⟩
  · intro k hk
    simp only [List.length_set] at hk
    simp only [File.getNode]
    by_cases hka : k = f.active_version
    · rw [hka, getD_set_eq _ _ _ _ hact, hid]
      exact hids f.active_version hact
    · rw [getD_set_ne _ _ _ _ _ (fun h => hka h.symm)]
      exact hids k hk
  · intro k hk
    simp only [List.length_set] at hk
    simp only [File.getNode]
    by_cases hka : k = f.active_version
    · rw [hka, getD_set_eq _ _ _ _ hact]
      unfold parentBelow
      rw [hparent]
      have hthis := hpar f.active_version hact
      unfold parentBelow at hthis
      exact hthis
    · rw [getD_set_ne _ _ _ _ _ (fun h => hka h.symm)]
      exact hpar k hk

theorem wf_branch (f : File) (c : String) (now : Nat) (hwf : f.WF) :
    File.WF { f with
      nodes := (f.nodes.set f.active_version
                  { f.activeNode with
                    children := f.activeNode.children ++ [f.nodes.length] })
                ++ [{ version_id := f.total_versions,
                      content := c,
                      message := "",
                      created_timestamp := now, snapshot_timestamp := 0,
                      parent := some f.active_version, children := [] }]
      active_version := f.nodes.length
      version_map := mapPut f.version_map ((f.total_versions : Int)) f.nodes.length
      total_versions := f.total_versions + 1
      last_modification_time := now } := by
  obtain ⟨hlen, hact, hids, hpar, hmap⟩ := hwf
  refine ⟨by simp [hlen], by simp, ?_, ?_, ?_⟩
  · intro k hk
    simp only [List.length_append, List.length_set, List.length_cons,
      List.length_nil] at hk
    simp only [File.getNode]
    by_cases hkn : k = f.nodes.length
    · subst hkn
      rw [getD_append_len _ _ _ _ (by simp)]
      exact hlen.symm
    · have hklt : k < f.nodes.length := by omega
      rw [getD_append_left _ _ _ _ (by simpa using hklt)]
      by_cases hka : k = f.active_version
      · rw [hka, getD_set_eq _ _ _ _ hact]
        exact hids f.active_version hact
      · rw [getD_set_ne _ _ _ _ _ (fun h => hka h.symm)]
        exact hids k hklt
  · intro k hk
    simp only [List.length_append, List.length_set, List.length_cons,
      List.length_nil] at hk
    simp only [File.getNode]
    by_cases hkn : k = f.nodes.length
    · subst hkn
      rw [getD_append_len _ _ _ _ (by simp)]
      exact hact
    · have hklt : k < f.nodes.length := by omega
      rw [getD_append_left _ _ _ _ (by simpa using hklt)]
      by_cases hka : k = f.active_version
      · rw [hka, getD_set_eq _ _ _ _ hact]
        unfold parentBelow
        have hthis := hpar f.active_version hact
        unfold parentBelow at hthis
        exact hthis
      · rw [getD_set_ne _ _ _ _ _ (fun h => hka h.symm)]
        exact hpar k hklt
  · show mapPut f.version_map ((f.total_versions : Int)) f.nodes.length
      = idMap (f.total_versions + 1)
    rw [hmap, hlen]
    exact mapPut_idMap f.total_versions

theorem wf_insert (f : File) (s : String) (now : Nat) (hwf : f.WF) :
    (f.insert s now).WF := by
  unfold File.insert
  split
  · exact wf_branch f (f.activeNode.content ++ s) now hwf
  · exact wf_set_preserve f
      { f.activeNode with content := f.activeNode.content ++ s } hwf rfl rfl now

theorem wf_update (f : File) (s : String) (now : Nat) (hwf : f.WF) :
    (f.update s now).WF := by
  unfold File.update
  split
  · exact wf_branch f s now hwf
  · exact wf_set_preserve f
      { f.activeNode with content := s } hwf rfl rfl now

theorem wf_snapshot (f : File) (msg : String) (now : Nat) (hwf : f.WF) :
    (f.snapshot msg now).1.WF := by
  unfold File.snapshot
  split
  · exact hwf
  · exact wf_set_preserve f
      { f.activeNode with message := msg, snapshot_timestamp := now } hwf rfl rfl now

theorem wf_rollback (f : File) (id : Int) (hwf : f.WF) : (f.rollback id).1.WF := by
  obtain ⟨hlen, hact, hids, hpar, hmap⟩ := hwf
  have hwf' : f.WF := ⟨hlen, hact, hids, hpar, hmap⟩
  unfold File.rollback
  split
  · cases hp : f.activeNode.parent with
    | none => exact hwf'
    | some p =>
      have hplt : p < f.active_version := by
        have hthis := hpar f.active_version hact
        unfold parentBelow at hthis
        have hp' : (f.getNode f.active_version).parent = some p := hp
        rw [hp'] at hthis
        exact hthis
      show File.WF { f with active_version := p }
      exact ⟨hlen, Nat.lt_trans hplt hact, hids, hpar, hmap⟩
  · split
    · exact hwf'
    · cases hg : mapGet f.version_map id with
      | none => exact hwf'
      | some idx =>
        rw [hmap, mapGet_idMap] at hg
        split at hg
        · rename_i hrange
          have hidx : id.toNat = idx := by simpa using hg
          have hlt : idx < f.nodes.length := by omega
          show File.WF { f with active_version := idx }
          exact ⟨hlen, hlt, hids, hpar, hmap⟩
        · simp at hg

theorem reachable_wf (f : File) (hr : f.Reachable) : f.WF := by
  induction hr with
  | created name now => exact wf_create name now
  | inserted f s now _ ih => exact wf_insert f s now ih
  | updated f s now _ ih => exact wf_update f s now ih
  | snapshotted f msg now _ ih => exact wf_snapshot f msg now ih
  | rolledBack f id _ ih => exact wf_rollback f id ih

/-- C7: ranking queries return non-increasing score sequences, enumerate
every file exactly once when asked for `-1` or at least the file count, and
leave the repository (including the live heaps) unchanged. -/
theorem ranking_spec (fs : FileSystem) (num : Int)
    (hc : fs.analyticsConsistent) : RankingSpecProp fs num := by
  have hrec : fs.recent_files_heap
      = ((fs.files.map (fun nf =>
            (⟨nf.2.filename, (nf.2.last_modification_time : Int)⟩ : FileMetric))).foldl
          heapInsert []) := by
    conv_lhs => rw [hc]
    rw [List.foldl_map]
    rfl
  have hbig : fs.biggest_trees_heap
      = ((fs.files.map (fun nf =>
            (⟨nf.2.filename, (nf.2.total_versions : Int)⟩ : FileMetric))).foldl
          heapInsert []) := by
    conv_lhs => rw [hc]
    rw [List.foldl_map]
    rfl
  have hrecHeap : IsHeap fs.recent_files_heap := by
    rw [hrec]
    exact foldl_heapInsert_isHeap _ [] isHeap_nil
  have hbigHeap : IsHeap fs.biggest_trees_heap := by
    rw [hbig]
    exact foldl_heapInsert_isHeap _ [] isHeap_nil
  have hrecPerm : fs.recent_files_heap.Perm
      (fs.files.map (fun nf =>
        (⟨nf.2.filename, (nf.2.last_modification_time : Int)⟩ : FileMetric))) := by
    rw [hrec]
    simpa using foldl_heapInsert_perm _ []
  have hbigPerm : fs.biggest_trees_heap.Perm
      (fs.files.map (fun nf =>
        (⟨nf.2.filename, (nf.2.total_versions : Int)⟩ : FileMetric))) := by
    rw [hbig]
    simpa using foldl_heapInsert_perm _ []
  refine ⟨?_, ?_, ?_, rfl, rfl⟩
  · exact drain_sorted _ _ hrecHeap
  · exact drain_sorted _ _ hbigHeap
  · intro hnum
    have hhl : fs.recent_files_heap.length = fs.files.length := by
      rw [hrecPerm.length_eq, List.length_map]
    have hbl : fs.biggest_trees_heap.length = fs.files.length := by
      rw [hbigPerm.length_eq, List.length_map]
    have hL : fs.files.length
        ≤ ((if num = -1 then ((fs.files.length : Int)) else num).toNat) := by
      rcases hnum with rfl | hn
      · simp
      · split
        · simp
        · omega
    constructor
    · exact (drain_perm _ _ (by rw [hhl]; exact hL)).trans hrecPerm
    · exact (drain_perm _ _ (by rw [hbl]; exact hL)).trans hbigPerm

/-- Witness for `ranking_spec` on a concrete three-file repository with the
all-files sentinel. -/
theorem ranking_spec_witness :
    RankingSpecProp ((((FileSystem.empty.create "a" 1).1.create "b" 2).1.create "c" 3).1) (-1) :=
  ranking_spec ((((FileSystem.empty.create "a" 1).1.create "b" 2).1.create "c" 3).1) (-1)
    (by decide)

end VCS
